import Mathlib

/-!
Verification of the time-structure analysis engine of the `xplt` repository.

The Python source (`src/xplt/timestructure.py`, `src/xplt/particles.py`) is
shallowly embedded below.  Machine floats are modelled by exact rationals `ℚ`
(respectively by `ℝ` where square roots and Fourier coefficients occur);
numpy arrays by `List`.  Display-unit factors (`factor_for(...)`) are
presentation concerns declared out of scope by the spec (§6) and are treated
as the identity.
-/

namespace Xplt

/-! ## Binned timeseries (`binned_timeseries` in `src/xplt/timestructure.py`) -/

/-- Truncation of a rational towards zero, the semantics of numpy's
`astype(int)` cast (C-style float-to-int conversion): `⌈q⌉` for negative `q`
and `⌊q⌋` otherwise. -/
def truncInt (q : ℚ) : ℤ :=
  if q < 0 then ⌈q⌉ else ⌊q⌋

/-- Minimum of two rationals (an executable synonym of `min`). -/
def qmin (a b : ℚ) : ℚ := if a ≤ b then a else b

/-- Maximum of two rationals (an executable synonym of `max`). -/
def qmax (a b : ℚ) : ℚ := if b ≤ a then a else b

/-- `np.min` over a list (callers guarantee nonempty input; `0` for `[]`). -/
def listMin : List ℚ → ℚ
  | [] => 0
  | x :: xs => xs.foldl qmin x

/-- `np.max` over a list (callers guarantee nonempty input; `0` for `[]`). -/
def listMax : List ℚ → ℚ
  | [] => 0
  | x :: xs => xs.foldl qmax x

/-- The bin index a timestamp is assigned in `binned_timeseries`:
`((t - t_min) / dt).astype(int)`.  When `dt = 0` the float division yields
NaN (or ±inf), whose integer cast lands far outside `[0, n)` on the supported
platforms, so the timestamp is masked out; this is modelled by `none`. -/
def binIndex (tmin dt t : ℚ) : Option ℤ :=
  if dt = 0 then none else some (truncInt ((t - tmin) / dt))

/-- Resolved lower edge of the binning range:
`t_min = np.min(times) if range is None or range[0] is None else range[0]`. -/
def resolveMin (times : List ℚ) (range : Option ℚ × Option ℚ) : ℚ :=
  range.1.getD (listMin times)

/-- Resolved upper edge of the binning range:
`t_max = np.max(times) if range is None or range[1] is None else range[1]`. -/
def resolveMax (times : List ℚ) (range : Option ℚ × Option ℚ) : ℚ :=
  range.2.getD (listMax times)

/-- `binned_timeseries(times, n, what=None, range)` from
`src/xplt/timestructure.py`: the count branch.  Returns `(t_min, dt, counts)`
where `counts[i]` is the number of timestamps with bin index `i` and
`0 <= i < n` (`np.bincount` of the mask-filtered indices, `minlength=n`,
truncated to length `n`). -/
def binned_timeseries (times : List ℚ) (n : ℕ) (range : Option ℚ × Option ℚ) :
    ℚ × ℚ × List ℕ :=
  let tmin := resolveMin times range
  let tmax := resolveMax times range
  let dt := (tmax - tmin) / n
  (tmin, dt,
    (List.range n).map fun i : ℕ =>
      times.countP fun t => decide (binIndex tmin dt t = some (i : ℤ)))

/-- `binned_timeseries(times, n, what, range)` from
`src/xplt/timestructure.py`: the averaging branch (`what` is an array aligned
with `times`).  `np.add.at` accumulates the mask-filtered `what` values per
bin into a zero-initialised array, which is then divided by the count
wherever the count is positive. -/
def binned_timeseries_what (times what : List ℚ) (n : ℕ)
    (range : Option ℚ × Option ℚ) : ℚ × ℚ × List ℚ :=
  let tmin := resolveMin times range
  let tmax := resolveMax times range
  let dt := (tmax - tmin) / n
  let pairs := times.zip what
  (tmin, dt,
    (List.range n).map fun i : ℕ =>
      let s := ((pairs.filter fun p =>
        decide (binIndex tmin dt p.1 = some (i : ℤ))).map Prod.snd).sum
      let c := times.countP fun t => decide (binIndex tmin dt t = some (i : ℤ))
      if 0 < c then s / c else s)

/-! ## Particle arrival time (`ParticlePlotMixin._get_masked`, branch
`prop == "t"`, in `src/xplt/particles.py`) -/

/-- Modelled from the spec: the speed-of-light constant `c0` is imported in
the source from `xplt/util.py`, which is not among the sources at hand; the
spec fixes it as 299792458 m/s. -/
def c0 : ℚ := 299792458

/-- Error raised by the arrival-time computation when the revolution
frequency is required but unavailable (a `ValueError` in the source; the
spec's error taxonomy names it `ConfigurationError`). -/
inductive ConfigurationError
  | missingFrev
  deriving DecidableEq

/-- Particle arrival-time computation, the `prop == "t"` branch of
`ParticlePlotMixin._get_masked` in `src/xplt/particles.py`:
`time = -zeta / beta / c0`; if any turn value is nonzero, `frev` is required
(otherwise a `ValueError` is raised) and then `time = time + turn / frev`. -/
def arrival_time (turn zeta : List ℚ) (beta : ℚ) (frev : Option ℚ) :
    Except ConfigurationError (List ℚ) :=
  let time := zeta.map fun z => -z / beta / c0
  if turn.any fun tu => decide (tu ≠ 0) then
    match frev with
    | none => .error .missingFrev
    | some f => .ok (List.zipWith (fun ti tu => ti + tu / f) time turn)
  else .ok time

/-! ## Spectrum (`TimeFFTPlot` in `src/xplt/timestructure.py`) -/

/-- Python `int.bit_length` for nonnegative integers: the number of binary
digits, `0` for `0`. -/
def bitLength (m : ℕ) : ℕ := if m = 0 then 0 else Nat.log2 m + 1

/-- Sample count used by `TimeFFTPlot.update`:
`n = int(np.ceil((np.max(times) - np.min(times)) * fmax * 2))` rounded up to
the next power of two via `n = 1 << (n - 1).bit_length()` (Python's
`bit_length` of a negative integer is that of its absolute value). -/
def fftBinCount (times : List ℚ) (fmax : ℚ) : ℕ :=
  let n0 : ℤ := ⌈(listMax times - listMin times) * fmax * 2⌉
  2 ^ bitLength (n0 - 1).natAbs

/-- Coefficient `k` of the discrete Fourier transform computed by
`np.fft.rfft`: `A_k = Σ_j x_j · exp(-2πi·j·k/n)`. -/
noncomputable def dftCoeff (x : List ℚ) (k : ℕ) : ℂ :=
  ∑ j ∈ Finset.range x.length,
    (x.getD j 0 : ℂ) * Complex.exp (-(2 * Real.pi * Complex.I * j * k) / x.length)

/-- Magnitudes `np.abs(np.fft.rfft(x))`: the one-sided transform of an
`n`-sample series has `n / 2 + 1` coefficients (indices `0 .. n / 2`). -/
noncomputable def rfftMag (x : List ℚ) : List ℝ :=
  (List.range (x.length / 2 + 1)).map fun k => Complex.abs (dftCoeff x k)

/-- The binned series the FFT is computed over (`binned_timeseries(times, n,
property)` in `TimeFFTPlot.update`): particle counts for `kind="count"`
(`property is None`), otherwise the per-bin average of the property. -/
def spectrumSeries (times : List ℚ) (what : Option (List ℚ)) (n : ℕ) : List ℚ :=
  match what with
  | none => (binned_timeseries times n (none, none)).2.2.map fun c : ℕ => (c : ℚ)
  | some w => (binned_timeseries_what times w n (none, none)).2.2

/-- Python's `str.lower()` (ASCII), written as a character map so that it
evaluates on literals. -/
def strLower (s : String) : String := String.mk (s.data.map Char.toLower)

/-- The spectrum computation of `TimeFFTPlot.update` (`SpectrumEngine` in the
spec): frequencies `np.fft.rfftfreq(n, d=dt)[1:]` (entry `k` of `rfftfreq` is
`k / (n·dt)`) and magnitudes `np.abs(np.fft.rfft(timeseries))[1:]`, scaled by
`2 / len(timeseries)` for `scaling="amplitude"` or squared elementwise for
`scaling="pds"` (comparison after `.lower()`; any other scaling string leaves
the magnitudes unscaled).  `dt` is the value returned by
`binned_timeseries`, `(t_max - t_min) / n`.  Returns
`(dt, frequencies, magnitudes)`. -/
noncomputable def spectrum (times : List ℚ) (what : Option (List ℚ)) (fmax : ℚ)
    (scaling : String) : ℚ × List ℚ × List ℝ :=
  let n := fftBinCount times fmax
  let dt := (listMax times - listMin times) / n
  let ts := spectrumSeries times what n
  let freq := ((List.range (n / 2 + 1)).map fun k : ℕ => (k : ℚ) / (n * dt)).drop 1
  let mags := (rfftMag ts).drop 1
  let mags :=
    if strLower scaling = "amplitude" then mags.map fun m => 2 / (ts.length : ℝ) * m
    else if strLower scaling = "pds" then mags.map fun m => m ^ 2
    else mags
  (dt, freq, mags)

/-- Default scaling selection in `TimeFFTPlot.__init__`:
`scaling = "pds" if kind == "count" else "amplitude"` (applied when the
caller passes `scaling=None`). -/
def defaultScaling (kind : String) : String :=
  if kind = "count" then "pds" else "amplitude"

/-! ## Interval histogram (`TimeIntervalPlot.update` in
`src/xplt/timestructure.py`) -/

/-- `np.diff(sorted(times))`: consecutive differences of the sorted
timestamps. -/
def intervalDelays (times : List ℚ) : List ℚ :=
  let s := times.insertionSort (· ≤ ·)
  List.zipWith (fun b a => b - a) s.tail s

/-- `np.histogram(data, bins=k, range=(lo, hi))[0]`: `k` equal-width bins
over `[lo, hi]`, each half-open except the last, which also includes `hi`;
data outside the range is not counted in any bin. -/
def histogramCounts (data : List ℚ) (k : ℕ) (lo hi : ℚ) : List ℕ :=
  let w := (hi - lo) / k
  (List.range k).map fun i =>
    data.countP fun x =>
      if i + 1 = k then decide (lo + i * w ≤ x ∧ x ≤ hi)
      else decide (lo + i * w ≤ x ∧ x < lo + (i + 1) * w)

/-- The histogram of inter-arrival delays computed by
`TimeIntervalPlot.update` (`IntervalEngine` in the spec):
`np.histogram(delay, bins=bin_count, range=(0, bin_count * bin_time))`. -/
def intervals (times : List ℚ) (bin_count : ℕ) (bin_time : ℚ) : List ℕ :=
  histogramCounts (intervalDelays times) bin_count 0 (bin_count * bin_time)

/-! ## Variability metrics (`TimeVariationPlot.update` in
`src/xplt/timestructure.py`) -/

/-- IEEE-754 double values as seen by the variability metrics: a finite real,
a signed infinity, or NaN.  (Signed zero is not modelled; the zero
denominators arising in the source are nonnegative means produced as
`+0.0`.) -/
inductive FVal
  | num (x : ℝ)
  | posInf
  | negInf
  | nan

open Classical in
/-- IEEE-754 division on `FVal`: `0/0` and `inf/inf` are NaN, `x/0` is a
signed infinity for finite `x ≠ 0`, finite over infinite is `0`, NaN
propagates. -/
noncomputable def fdiv : FVal → FVal → FVal
  | .nan, _ => .nan
  | .num a, .num b =>
      if b = 0 then (if a = 0 then .nan else if 0 < a then .posInf else .negInf)
      else .num (a / b)
  | .num _, .posInf => .num 0
  | .num _, .negInf => .num 0
  | .posInf, .num b => if b < 0 then .negInf else .posInf
  | .negInf, .num b => if b < 0 then .posInf else .negInf
  | .posInf, _ => .nan
  | .negInf, _ => .nan
  | _, .nan => .nan

open Classical in
/-- IEEE-754 addition on `FVal`: opposite infinities give NaN, NaN
propagates. -/
noncomputable def fadd : FVal → FVal → FVal
  | .nan, _ => .nan
  | .num a, .num b => .num (a + b)
  | .num _, .posInf => .posInf
  | .num _, .negInf => .negInf
  | .posInf, .num _ => .posInf
  | .negInf, .num _ => .negInf
  | .posInf, .posInf => .posInf
  | .negInf, .negInf => .negInf
  | .posInf, .negInf => .nan
  | .negInf, .posInf => .nan
  | _, .nan => .nan

/-- `np.mean` of one window of fine-bin counts (windows are nonempty by
construction in the source; `np.mean([])` would be NaN). -/
noncomputable def rmean (w : List ℕ) : ℝ := (w.sum : ℝ) / w.length

/-- `np.mean(N**2)` of one window of fine-bin counts. -/
noncomputable def rmeanSq (w : List ℕ) : ℝ :=
  (((w.map fun x => x ^ 2).sum : ℕ) : ℝ) / w.length

/-- `np.std` (population standard deviation, `ddof=0`) of one window of
fine-bin counts. -/
noncomputable def rstd (w : List ℕ) : ℝ :=
  Real.sqrt ((w.map fun x : ℕ => ((x : ℝ) - rmean w) ^ 2).sum / w.length)

/-- `F = np.std(N, axis=1) / np.mean(N, axis=1)` for one window. -/
noncomputable def cvValue (w : List ℕ) : FVal :=
  fdiv (.num (rstd w)) (.num (rmean w))

/-- `F_poisson = 1 / np.mean(N, axis=1) ** 0.5` for one window
(the mean is nonnegative, so `** 0.5` is its square root). -/
noncomputable def cvPoisson (w : List ℕ) : FVal :=
  fdiv (.num 1) (.num (Real.sqrt (rmean w)))

/-- `F = np.mean(N, axis=1) ** 2 / np.mean(N**2, axis=1)` for one window. -/
noncomputable def dutyValue (w : List ℕ) : FVal :=
  fdiv (.num ((rmean w) ^ 2)) (.num (rmeanSq w))

/-- `F_poisson = 1 / (1 + 1 / np.mean(N, axis=1))` for one window. -/
noncomputable def dutyPoisson (w : List ℕ) : FVal :=
  fdiv (.num 1) (fadd (.num 1) (fdiv (.num 1) (.num (rmean w))))

/-- The reshape step of `TimeVariationPlot.update`:
`counts[: int(len(counts) / nebins) * nebins].reshape((-1, nebins))` — the
fine-bin counts grouped into contiguous windows of `g` bins each, any tail
remainder dropped. -/
def windowsOf (counts : List ℕ) (g : ℕ) : List (List ℕ) :=
  (List.range (counts.length / g)).map fun i => (counts.drop (i * g)).take g

/-- Error raised by `TimeVariationPlot.update` for an unsupported metric name
(a `ValueError` in the source; the spec's taxonomy names it
`UnknownMetricError`). -/
inductive UnknownMetricError
  | unknown (metricName : String)

/-- The metric computation of `TimeVariationPlot.update` (`VariabilityEngine`
in the spec): per evaluation window the metric value and its Poisson
reference, dispatched on the metric name; unknown names raise. -/
noncomputable def variabilityMetrics (metric : String)
    (windows : List (List ℕ)) :
    Except UnknownMetricError (List FVal × List FVal) :=
  if metric = "cv" then .ok (windows.map cvValue, windows.map cvPoisson)
  else if metric = "duty" then .ok (windows.map dutyValue, windows.map dutyPoisson)
  else .error (.unknown metric)

/-- The full variability pipeline of `TimeVariationPlot.update`: counting
bins via `binned_timeseries` (counts only, inferred range), grouping into
evaluation windows of `nebins` fine bins, then the metric computation. -/
noncomputable def timeVariation (times : List ℚ) (ncbins nebins : ℕ)
    (metric : String) : Except UnknownMetricError (List FVal × List FVal) :=
  variabilityMetrics metric
    (windowsOf (binned_timeseries times ncbins (none, none)).2.2 nebins)

/-! ## Helper lemmas on minima, maxima and truncation -/

lemma qmin_le_left (a b : ℚ) : qmin a b ≤ a := by
  unfold qmin; split
  · exact le_refl a
  · linarith [le_of_not_le (by assumption : ¬ a ≤ b)]

lemma qmin_le_right (a b : ℚ) : qmin a b ≤ b := by
  unfold qmin; split
  · assumption
  · exact le_refl b

lemma left_le_qmax (a b : ℚ) : a ≤ qmax a b := by
  unfold qmax; split
  · exact le_refl a
  · linarith [le_of_not_le (by assumption : ¬ b ≤ a)]

lemma right_le_qmax (a b : ℚ) : b ≤ qmax a b := by
  unfold qmax; split
  · assumption
  · exact le_refl b

lemma foldl_qmin_le_init (xs : List ℚ) (a : ℚ) : xs.foldl qmin a ≤ a := by
  induction xs generalizing a with
  | nil => exact le_refl a
  | cons y ys ih => exact le_trans (ih (qmin a y)) (qmin_le_left a y)

lemma foldl_qmin_le_mem (xs : List ℚ) (a t : ℚ) (h : t ∈ xs) :
    xs.foldl qmin a ≤ t := by
  induction xs generalizing a with
  | nil => cases h
  | cons y ys ih =>
    rcases List.mem_cons.1 h with rfl | hmem
    · exact le_trans (foldl_qmin_le_init ys (qmin a t)) (qmin_le_right a t)
    · exact ih (qmin a y) hmem

lemma init_le_foldl_qmax (xs : List ℚ) (a : ℚ) : a ≤ xs.foldl qmax a := by
  induction xs generalizing a with
  | nil => exact le_refl a
  | cons y ys ih => exact le_trans (left_le_qmax a y) (ih (qmax a y))

lemma mem_le_foldl_qmax (xs : List ℚ) (a t : ℚ) (h : t ∈ xs) :
    t ≤ xs.foldl qmax a := by
  induction xs generalizing a with
  | nil => cases h
  | cons y ys ih =>
    rcases List.mem_cons.1 h with rfl | hmem
    · exact le_trans (right_le_qmax a t) (init_le_foldl_qmax ys (qmax a t))
    · exact ih (qmax a y) hmem

lemma listMin_le {times : List ℚ} {t : ℚ} (h : t ∈ times) :
    listMin times ≤ t := by
  cases times with
  | nil => cases h
  | cons x xs =>
    rcases List.mem_cons.1 h with rfl | hmem
    · exact foldl_qmin_le_init xs t
    · exact foldl_qmin_le_mem xs x t hmem

lemma le_listMax {times : List ℚ} {t : ℚ} (h : t ∈ times) :
    t ≤ listMax times := by
  cases times with
  | nil => cases h
  | cons x xs =>
    rcases List.mem_cons.1 h with rfl | hmem
    · exact init_le_foldl_qmax xs t
    · exact mem_le_foldl_qmax xs x t hmem

lemma truncInt_eq_natCast_iff {i : ℕ} (hi : 1 ≤ i) {q : ℚ} :
    truncInt q = (i : ℤ) ↔ (i : ℚ) ≤ q ∧ q < (i : ℚ) + 1 := by
  unfold truncInt
  split_ifs with hneg
  · have h0 : ⌈q⌉ ≤ 0 := Int.ceil_le.2 (by exact_mod_cast le_of_lt hneg)
    constructor
    · intro hc; exfalso; omega
    · intro ⟨h1, _⟩
      exfalso
      have hq1 : (1 : ℚ) ≤ q := le_trans (by exact_mod_cast hi) h1
      linarith
  · push_neg at hneg
    rw [Int.floor_eq_iff]
    constructor
    · intro ⟨h1, h2⟩; exact ⟨h1, by push_cast at h2 ⊢; linarith⟩
    · intro ⟨h1, h2⟩; exact ⟨h1, by push_cast; linarith⟩

lemma truncInt_eq_zero_iff {q : ℚ} : truncInt q = 0 ↔ -1 < q ∧ q < 1 := by
  unfold truncInt
  split_ifs with hneg
  · rw [Int.ceil_eq_zero_iff]
    constructor
    · intro h; exact ⟨h.1, lt_of_le_of_lt h.2 one_pos⟩
    · intro ⟨h1, _⟩; exact ⟨h1, le_of_lt hneg⟩
  · push_neg at hneg
    rw [Int.floor_eq_zero_iff]
    constructor
    · intro h; exact ⟨lt_of_lt_of_le (by norm_num) h.1, h.2⟩
    · intro ⟨_, h2⟩; exact ⟨hneg, h2⟩

lemma truncInt_range_iff {q : ℚ} {n : ℕ} (hn : 1 ≤ n) :
    (0 ≤ truncInt q ∧ truncInt q < (n : ℤ)) ↔ -1 < q ∧ q < n := by
  unfold truncInt
  split_ifs with hneg
  · have h0 : ⌈q⌉ ≤ 0 := Int.ceil_le.2 (by exact_mod_cast le_of_lt hneg)
    constructor
    · intro ⟨h1, _⟩
      have hc0 : ⌈q⌉ = 0 := le_antisymm h0 h1
      have hmem := Int.ceil_eq_zero_iff.1 hc0
      have hq0 : q ≤ 0 := hmem.2
      refine ⟨hmem.1, lt_of_le_of_lt hq0 ?_⟩
      exact_mod_cast hn
    · intro ⟨h1, _⟩
      have hc0 : ⌈q⌉ = 0 := Int.ceil_eq_zero_iff.2 ⟨h1, le_of_lt hneg⟩
      rw [hc0]
      exact ⟨le_refl 0, by exact_mod_cast hn⟩
  · push_neg at hneg
    constructor
    · intro ⟨_, h2⟩
      exact ⟨lt_of_lt_of_le (by norm_num) hneg, by exact_mod_cast Int.floor_lt.1 h2⟩
    · intro ⟨_, h2⟩
      exact ⟨Int.floor_nonneg.2 hneg, Int.floor_lt.2 (by exact_mod_cast h2)⟩

/-! ## Helper lemmas on bin indices and bin counts -/

lemma binIndex_eq_some_pos_iff {tmin dt t : ℚ} (hdt : 0 < dt) {i : ℕ}
    (hi : 1 ≤ i) :
    binIndex tmin dt t = some (i : ℤ) ↔
      tmin + i * dt ≤ t ∧ t < tmin + (i + 1) * dt := by
  unfold binIndex
  rw [if_neg (ne_of_gt hdt), Option.some_inj, truncInt_eq_natCast_iff hi]
  rw [le_div_iff₀ hdt, div_lt_iff₀ hdt]
  constructor
  · intro ⟨h1, h2⟩; constructor <;> nlinarith
  · intro ⟨h1, h2⟩; constructor <;> nlinarith

lemma binIndex_eq_some_zero_iff {tmin dt t : ℚ} (hdt : 0 < dt) :
    binIndex tmin dt t = some 0 ↔ tmin - dt < t ∧ t < tmin + dt := by
  unfold binIndex
  rw [if_neg (ne_of_gt hdt), Option.some_inj, truncInt_eq_zero_iff]
  rw [div_lt_iff₀ hdt, lt_div_iff₀ hdt]
  constructor
  · intro ⟨h1, h2⟩; constructor <;> nlinarith
  · intro ⟨h1, h2⟩; constructor <;> nlinarith

lemma binIndex_in_range_iff {tmin dt t : ℚ} (hdt : 0 < dt) {n : ℕ}
    (hn : 1 ≤ n) :
    (∃ j : ℤ, binIndex tmin dt t = some j ∧ 0 ≤ j ∧ j < (n : ℤ)) ↔
      tmin - dt < t ∧ t < tmin + n * dt := by
  unfold binIndex
  rw [if_neg (ne_of_gt hdt)]
  constructor
  · intro ⟨j, hj, hr⟩
    rw [Option.some_inj] at hj
    subst hj
    have hq := (truncInt_range_iff hn).1 hr
    rw [div_lt_iff₀ hdt, lt_div_iff₀ hdt] at hq
    obtain ⟨h1, h2⟩ := hq
    constructor <;> nlinarith
  · intro ⟨h1, h2⟩
    refine ⟨truncInt ((t - tmin) / dt), rfl, (truncInt_range_iff hn).2 ?_⟩
    rw [div_lt_iff₀ hdt, lt_div_iff₀ hdt]
    constructor <;> nlinarith

lemma range_map_sum_eq (n : ℕ) (g : ℕ → ℕ) :
    ((List.range n).map g).sum = ∑ i ∈ Finset.range n, g i := by
  induction n with
  | zero => simp
  | succ n ih =>
    rw [List.range_succ, List.map_append, List.sum_append, Finset.sum_range_succ, ih]
    simp

lemma sum_range_indicator (n : ℕ) (j : ℤ) :
    (∑ i ∈ Finset.range n, if j = (i : ℤ) then 1 else 0)
      = if 0 ≤ j ∧ j < (n : ℤ) then 1 else 0 := by
  induction n with
  | zero =>
    rw [Finset.range_zero, Finset.sum_empty]
    split_ifs with h
    · exfalso; omega
    · rfl
  | succ n ih =>
    rw [Finset.sum_range_succ, ih]
    push_cast
    split_ifs <;> omega

lemma counts_sum (times : List ℚ) (f : ℚ → Option ℤ) (n : ℕ) :
    ((List.range n).map fun i : ℕ =>
        times.countP fun t => decide (f t = some (i : ℤ))).sum
      = times.countP fun t =>
          match f t with
          | some j => decide (0 ≤ j ∧ j < (n : ℤ))
          | none => false := by
  rw [range_map_sum_eq]
  induction times with
  | nil => simp
  | cons t ts ih =>
    simp only [List.countP_cons, decide_eq_true_eq]
    rw [Finset.sum_add_distrib, ih]
    congr 1
    cases h : f t with
    | none => simp [h]
    | some j =>
      simp only [h, Option.some.injEq, decide_eq_true_eq]
      exact sum_range_indicator n j

/-! ## Facts shared by the claims about `binned_timeseries` -/

lemma range_map_getD {α : Type} (n i : ℕ) (g : ℕ → α) (d : α) (h : i < n) :
    ((List.range n).map g).getD i d = g i := by
  rw [List.getD_eq_getElem?_getD]
  simp [List.getElem?_map, List.getElem?_range h]

lemma binned_counts_length (times : List ℚ) (n : ℕ) (r : Option ℚ × Option ℚ) :
    (binned_timeseries times n r).2.2.length = n := by
  simp [binned_timeseries]

lemma binned_counts_getD (times : List ℚ) (n : ℕ) (r : Option ℚ × Option ℚ)
    {i : ℕ} (h : i < n) :
    (binned_timeseries times n r).2.2.getD i 0
      = times.countP fun t =>
          decide (binIndex (resolveMin times r)
            ((resolveMax times r - resolveMin times r) / n) t = some (i : ℤ)) := by
  simp only [binned_timeseries]
  exact range_map_getD n i _ 0 h

lemma binned_counts_sum (times : List ℚ) (n : ℕ) (r : Option ℚ × Option ℚ) :
    (binned_timeseries times n r).2.2.sum
      = times.countP fun t =>
          match binIndex (resolveMin times r)
              ((resolveMax times r - resolveMin times r) / n) t with
          | some j => decide (0 ≤ j ∧ j < (n : ℤ))
          | none => false := by
  simp only [binned_timeseries]
  exact counts_sum times _ n

lemma match_binIndex_eq_true_iff (tmin dt t : ℚ) (n : ℕ) :
    ((match binIndex tmin dt t with
      | some j => decide (0 ≤ j ∧ j < (n : ℤ))
      | none => false) = true)
      ↔ ∃ j : ℤ, binIndex tmin dt t = some j ∧ 0 ≤ j ∧ j < (n : ℤ) := by
  cases h : binIndex tmin dt t <;> simp [h]

/-! ## C1 -/

/-- C1 (as stated, counterexample): for `times = [0, 1]` and `n = 1` with
inferred range, `binned_timeseries` yields counts `[1]` whose sum is `1`,
not `len(times) = 2`: the timestamp lying exactly at `t_max` is assigned bin
index `n` and masked out. -/
theorem c1_counterexample :
    (binned_timeseries [(0 : ℚ), 1] 1 (none, none)).2.2.sum ≠ 2 := by
  norm_num [binned_timeseries, resolveMin, resolveMax, listMin, listMax, qmin,
    qmax, binIndex, truncInt, List.countP, List.countP.go, List.range,
    List.range.loop]

/-- C1 (amended): for every timestamp array and every `n ≥ 1`,
`binned_timeseries(times, n)` with `what=None` and `range=None` returns a
values array of length exactly `n`, and the sum of its entries equals the
number of timestamps strictly below `max(times)` (the maximum itself is
dropped, so the sum is `len(times)` minus the multiplicity of the maximum). -/
theorem c1_binned_length_and_sum (times : List ℚ) (n : ℕ) (hn : 1 ≤ n) :
    (binned_timeseries times n (none, none)).2.2.length = n ∧
    (binned_timeseries times n (none, none)).2.2.sum
      = times.countP fun t => decide (t < listMax times) := by
  refine ⟨binned_counts_length times n (none, none), ?_⟩
  rw [binned_counts_sum]
  refine List.countP_congr ?_
  intro t ht
  simp only [resolveMin, resolveMax, Option.getD_none] at *
  rw [match_binIndex_eq_true_iff, decide_eq_true_eq]
  have hle : listMin times ≤ t := listMin_le ht
  have hge : t ≤ listMax times := le_listMax ht
  rcases eq_or_lt_of_le (le_trans hle hge) with heq | hlt
  · have hdt : (listMax times - listMin times) / (n : ℚ) = 0 := by
      rw [← heq]; ring_nf
    constructor
    · intro ⟨j, hj, _⟩
      rw [binIndex, if_pos hdt] at hj
      cases hj
    · intro hlt2
      exfalso
      rw [← heq] at hlt2
      linarith
  · have hdt : 0 < (listMax times - listMin times) / (n : ℚ) := by
      apply div_pos (by linarith)
      exact_mod_cast Nat.lt_of_lt_of_le Nat.zero_lt_one hn
    rw [binIndex_in_range_iff hdt hn]
    have hn0 : 0 < n := Nat.lt_of_lt_of_le Nat.zero_lt_one hn
    have hnq : (n : ℚ) ≠ 0 := by exact_mod_cast hn0.ne'
    have hsum : listMin times + (n : ℚ) * ((listMax times - listMin times) / n)
        = listMax times := by field_simp
    rw [hsum]
    constructor
    · intro ⟨_, h2⟩; exact h2
    · intro h2
      refine ⟨?_, h2⟩
      have : 0 < (listMax times - listMin times) / (n : ℚ) := hdt
      linarith

/-- Witness for C1 (amended) at `times = [0, 1/2, 2]`, `n = 2`. -/
theorem c1_witness :
    (binned_timeseries [(0 : ℚ), 1/2, 2] 2 (none, none)).2.2.length = 2 ∧
    (binned_timeseries [(0 : ℚ), 1/2, 2] 2 (none, none)).2.2.sum
      = List.countP (fun t => decide (t < listMax [(0 : ℚ), 1/2, 2]))
          [(0 : ℚ), 1/2, 2] :=
  c1_binned_length_and_sum [(0 : ℚ), 1/2, 2] 2 (by norm_num)

/-! ## C2 -/

/-- C2 (as stated, counterexample): with the range inferred from the data
(`times = [0, 1]`, `n = 1`), the timestamp falling exactly on `t_max` is NOT
placed in the last bin — the counts are `[1]`, not `[2]`, because index `n`
is masked out rather than clamped to `n - 1`.  And with an explicit range
(`times = [1/2, 10]`, `range = (1, 11)`, `n = 10`), the timestamp `1/2`
outside `[t_min, t_max]` is NOT silently dropped: truncation towards zero of
`(1/2 - 1) / 1 = -1/2` gives index `0`, so it is counted in the first bin. -/
theorem c2_counterexample :
    (binned_timeseries [(0 : ℚ), 1] 1 (none, none)).2.2 = [1] ∧
    (binned_timeseries [(1/2 : ℚ), 10] 10 (some 1, some 11)).2.2
      = [1, 0, 0, 0, 0, 0, 0, 0, 0, 1] := by
  constructor <;>
    norm_num [binned_timeseries, resolveMin, resolveMax, listMin, listMax,
      qmin, qmax, binIndex, truncInt, List.countP, List.countP.go, List.range,
      List.range.loop, Int.ceil_neg]

/-- C2 (amended): in `binned_timeseries` every timestamp maps to bin index
`trunc((t - t_min)/dt)` — truncation towards zero, which agrees with
`floor` only for `t ≥ t_min` — and every index outside `[0, n)` is dropped,
with inferred and with explicit range alike.  Hence, for `dt > 0`: bin
`i ≥ 1` counts the timestamps in the half-open window
`[t_min + i·dt, t_min + (i+1)·dt)`; bin `0` counts the timestamps in
`(t_min - dt, t_min + dt)`, which includes points below the range; and the
total equals the number of timestamps in `(t_min - dt, t_max)` — a
timestamp exactly at `t_max` is dropped, not clamped. -/
theorem c2_bin_assignment (times : List ℚ) (n : ℕ) (r : Option ℚ × Option ℚ)
    (tmin tmax dt : ℚ) (hmin : tmin = resolveMin times r)
    (hmax : tmax = resolveMax times r) (hdtdef : dt = (tmax - tmin) / n)
    (hn : 1 ≤ n) (hd : tmin < tmax) :
    (∀ i : ℕ, 1 ≤ i → i < n →
      (binned_timeseries times n r).2.2.getD i 0
        = times.countP fun t =>
            decide (tmin + i * dt ≤ t ∧ t < tmin + (i + 1) * dt)) ∧
    ((binned_timeseries times n r).2.2.getD 0 0
      = times.countP fun t => decide (tmin - dt < t ∧ t < tmin + dt)) ∧
    ((binned_timeseries times n r).2.2.sum
      = times.countP fun t => decide (tmin - dt < t ∧ t < tmax)) := by
  have hn0 : 0 < n := Nat.lt_of_lt_of_le Nat.zero_lt_one hn
  have hnq : (n : ℚ) ≠ 0 := by exact_mod_cast hn0.ne'
  have hdt : 0 < dt := by
    rw [hdtdef]
    apply div_pos (by linarith)
    exact_mod_cast hn0
  refine ⟨?_, ?_, ?_⟩
  · intro i hi hilt
    rw [binned_counts_getD times n r hilt, ← hmin, ← hmax, ← hdtdef]
    refine List.countP_congr ?_
    intro t _
    simp only [decide_eq_true_eq]
    exact binIndex_eq_some_pos_iff hdt hi
  · rw [binned_counts_getD times n r hn0, ← hmin, ← hmax, ← hdtdef]
    refine List.countP_congr ?_
    intro t _
    simp only [decide_eq_true_eq, Nat.cast_zero]
    exact binIndex_eq_some_zero_iff hdt
  · rw [binned_counts_sum, ← hmin, ← hmax, ← hdtdef]
    refine List.countP_congr ?_
    intro t _
    rw [match_binIndex_eq_true_iff, decide_eq_true_eq,
      binIndex_in_range_iff hdt hn]
    have hsum : tmin + (n : ℚ) * dt = tmax := by
      rw [hdtdef]; field_simp
    rw [hsum]

/-- Witness for C2 (amended) at `times = [0, 1/2, 1]`, `n = 2`, inferred
range (`t_min = 0`, `t_max = 1`, `dt = 1/2`). -/
theorem c2_witness :
    (∀ i : ℕ, 1 ≤ i → i < 2 →
      (binned_timeseries [(0 : ℚ), 1/2, 1] 2 (none, none)).2.2.getD i 0
        = List.countP (fun t =>
            decide ((0 : ℚ) + i * (1/2) ≤ t ∧ t < 0 + (i + 1) * (1/2)))
            [(0 : ℚ), 1/2, 1]) ∧
    ((binned_timeseries [(0 : ℚ), 1/2, 1] 2 (none, none)).2.2.getD 0 0
      = List.countP (fun t => decide ((0 : ℚ) - 1/2 < t ∧ t < 0 + 1/2))
          [(0 : ℚ), 1/2, 1]) ∧
    ((binned_timeseries [(0 : ℚ), 1/2, 1] 2 (none, none)).2.2.sum
      = List.countP (fun t => decide ((0 : ℚ) - 1/2 < t ∧ t < 1))
          [(0 : ℚ), 1/2, 1]) :=
  c2_bin_assignment [(0 : ℚ), 1/2, 1] 2 (none, none) 0 1 (1/2)
    (by norm_num [resolveMin, listMin, qmin])
    (by norm_num [resolveMax, listMax, qmax])
    (by norm_num) (by norm_num) (by norm_num)

/-! ## C3 -/

/-- C3 (as stated, counterexample): for the degenerate input `times = [5, 5]`
(all timestamps identical, `n = 1`, inferred range), `binned_timeseries`
does NOT fail: it computes `dt = (t_max - t_min) / n = 0` — the division by
zero the claim says is guarded against happens — and returns the ordinary
tuple `(5, 0, [0])`.  No `DegenerateRangeError` (nor any other error) exists
in the source; the function has no failure path at all. -/
theorem c3_counterexample :
    binned_timeseries [(5 : ℚ), 5] 1 (none, none) = (5, 0, [0]) := by
  norm_num [binned_timeseries, resolveMin, resolveMax, listMin, listMax,
    qmin, qmax, binIndex, List.countP, List.countP.go, List.range,
    List.range.loop]
  simp

/-- C3 (amended): on every input with a degenerate resolved range
(`t_max = t_min`, e.g. all timestamps identical), `binned_timeseries`
silently returns `dt = 0` and an all-zero count array — every timestamp is
masked out through the NaN/±inf integer cast — instead of surfacing an
error. -/
theorem c3_degenerate_range (times : List ℚ) (n : ℕ)
    (r : Option ℚ × Option ℚ)
    (h : resolveMin times r = resolveMax times r) :
    (binned_timeseries times n r).2.1 = 0 ∧
    (binned_timeseries times n r).2.2 = List.replicate n 0 := by
  have hdt : (resolveMax times r - resolveMin times r) / (n : ℚ) = 0 := by
    rw [h]; simp
  constructor
  · simp only [binned_timeseries]
    exact hdt
  · simp only [binned_timeseries]
    have hc : ∀ i : ℕ, (times.countP fun t =>
        decide (binIndex (resolveMin times r)
          ((resolveMax times r - resolveMin times r) / n) t = some (i : ℤ)))
          = 0 := by
      intro i
      refine List.countP_eq_zero.2 ?_
      intro t _
      simp [binIndex, hdt]
    simp only [hc]
    simp [List.map_const']

/-- Witness for C3 (amended) at `times = [5, 5]`, `n = 1`: the returned
`dt` is `0` and the counts are `[0]`. -/
theorem c3_witness :
    (binned_timeseries [(5 : ℚ), 5] 1 (none, none)).2.1 = 0 ∧
    (binned_timeseries [(5 : ℚ), 5] 1 (none, none)).2.2
      = List.replicate 1 0 :=
  c3_degenerate_range [(5 : ℚ), 5] 1 (none, none)
    (by norm_num [resolveMin, resolveMax, listMin, listMax, qmin, qmax])

/-! ## C4 -/

/-- C4: in the averaging branch of `binned_timeseries`, every bin whose
timestamp count is zero reports exactly `0` (the division is skipped, so no
NaN can arise), and every bin with a positive count reports the arithmetic
mean — the sum of the `what` values index-aligned with the timestamps
falling in that bin, divided by that count. -/
theorem c4_binned_average (times what : List ℚ) (n : ℕ)
    (r : Option ℚ × Option ℚ) (hlen : what.length = times.length)
    (i : ℕ) (hi : i < n) :
    ((binned_timeseries times n r).2.2.getD i 0 = 0 →
      (binned_timeseries_what times what n r).2.2.getD i 0 = 0) ∧
    (0 < (binned_timeseries times n r).2.2.getD i 0 →
      (binned_timeseries_what times what n r).2.2.getD i 0
        = (((times.zip what).filter fun p =>
              decide (binIndex (resolveMin times r)
                ((resolveMax times r - resolveMin times r) / n) p.1
                  = some (i : ℤ))).map Prod.snd).sum
          / (binned_timeseries times n r).2.2.getD i 0) := by
  rw [binned_counts_getD times n r hi]
  have hv : (binned_timeseries_what times what n r).2.2.getD i 0
      = (let s := (((times.zip what).filter fun p =>
            decide (binIndex (resolveMin times r)
              ((resolveMax times r - resolveMin times r) / n) p.1
                = some (i : ℤ))).map Prod.snd).sum
         let c := times.countP fun t =>
            decide (binIndex (resolveMin times r)
              ((resolveMax times r - resolveMin times r) / n) t = some (i : ℤ))
         if 0 < c then s / c else s) := by
    simp only [binned_timeseries_what]
    exact range_map_getD n i _ 0 hi
  rw [hv]
  constructor
  · intro hc0
    simp only [hc0, lt_irrefl, if_false]
    have hfil : ((times.zip what).filter fun p =>
        decide (binIndex (resolveMin times r)
          ((resolveMax times r - resolveMin times r) / n) p.1
            = some (i : ℤ))) = [] := by
      refine List.filter_eq_nil_iff.2 ?_
      intro p hp
      have hmem := (List.of_mem_zip hp).1
      have := List.countP_eq_zero.1 hc0 p.1 hmem
      simpa using this
    rw [hfil]
    simp
  · intro hcpos
    simp only [if_pos hcpos]

/-- Witness for C4 at `times = [0, 1/2, 3/4]`, `what = [10, 20, 30]`,
`n = 2`, inferred range, bin `i = 0`. -/
theorem c4_witness :
    ((binned_timeseries [(0 : ℚ), 1/2, 3/4] 2 (none, none)).2.2.getD 0 0 = 0 →
      (binned_timeseries_what [(0 : ℚ), 1/2, 3/4] [10, 20, 30] 2
        (none, none)).2.2.getD 0 0 = 0) ∧
    (0 < (binned_timeseries [(0 : ℚ), 1/2, 3/4] 2 (none, none)).2.2.getD 0 0 →
      (binned_timeseries_what [(0 : ℚ), 1/2, 3/4] [10, 20, 30] 2
        (none, none)).2.2.getD 0 0
        = ((([(0 : ℚ), 1/2, 3/4].zip [10, 20, 30]).filter fun p =>
              decide (binIndex (resolveMin [(0 : ℚ), 1/2, 3/4] (none, none))
                ((resolveMax [(0 : ℚ), 1/2, 3/4] (none, none)
                  - resolveMin [(0 : ℚ), 1/2, 3/4] (none, none)) / 2) p.1
                  = some ((0 : ℕ) : ℤ))).map Prod.snd).sum
          / (binned_timeseries [(0 : ℚ), 1/2, 3/4] 2 (none, none)).2.2.getD 0 0) :=
  c4_binned_average [(0 : ℚ), 1/2, 3/4] [10, 20, 30] 2 (none, none)
    (by norm_num) 0 (by norm_num)

/-! ## C5 -/

lemma zipWith_getD (as bs : List ℚ) (g : ℚ → ℚ → ℚ) (i : ℕ)
    (h1 : i < as.length) (h2 : i < bs.length) :
    (List.zipWith g as bs).getD i 0 = g (as.getD i 0) (bs.getD i 0) := by
  rw [List.getD_eq_getElem?_getD, List.getElem?_zipWith]
  rw [List.getElem?_eq_getElem h1, List.getElem?_eq_getElem h2]
  simp [List.getD_eq_getElem?_getD, List.getElem?_eq_getElem, h1, h2]

lemma map_getD (as : List ℚ) (g : ℚ → ℚ) (i : ℕ) (h1 : i < as.length) :
    (as.map g).getD i 0 = g (as.getD i 0) := by
  rw [List.getD_eq_getElem?_getD, List.getElem?_map]
  simp [List.getD_eq_getElem?_getD, List.getElem?_eq_getElem, h1]

lemma getD_eq_zero_of_forall_zero {turn : List ℚ} (h : ∀ tu ∈ turn, tu = 0)
    (i : ℕ) : turn.getD i 0 = 0 := by
  rcases Nat.lt_or_ge i turn.length with hlt | hge
  · rw [List.getD_eq_getElem?_getD, List.getElem?_eq_getElem hlt]
    exact h _ (List.getElem_mem hlt)
  · rw [List.getD_eq_getElem?_getD, List.getElem?_eq_none (by omega)]
    rfl

/-- C5: the arrival-time computation returns `-zeta / beta / c0`
(`c0 = 299792458`) when all turn values are zero; when some turn value is
nonzero and `frev` is unavailable it fails with the configuration error; and
whenever `frev` is available it succeeds with a list aligned index-for-index
with the inputs whose entries are `-zeta/beta/c0 + turn/frev`. -/
theorem c5_arrival_time (turn zeta : List ℚ) (beta : ℚ) (frev : Option ℚ)
    (hlen : turn.length = zeta.length) :
    ((∀ tu ∈ turn, tu = 0) →
      arrival_time turn zeta beta frev
        = .ok (zeta.map fun z => -z / beta / c0)) ∧
    ((∃ tu ∈ turn, tu ≠ 0) → frev = none →
      arrival_time turn zeta beta frev = .error .missingFrev) ∧
    (∀ f, frev = some f →
      ∃ ts, arrival_time turn zeta beta frev = .ok ts ∧
        ts.length = zeta.length ∧
        ∀ i, i < zeta.length →
          ts.getD i 0
            = -(zeta.getD i 0) / beta / c0 + (turn.getD i 0) / f) := by
  refine ⟨?_, ?_, ?_⟩
  · intro hall
    unfold arrival_time
    rw [if_neg]
    simp only [List.any_eq_true, decide_eq_true_eq, not_exists]
    intro tu
    simp only [not_and]
    intro htu
    exact fun hne => hne (hall tu htu)
  · intro hex hnone
    unfold arrival_time
    rw [if_pos, hnone]
    simp only [List.any_eq_true, decide_eq_true_eq]
    exact hex
  · intro f hf
    unfold arrival_time
    rw [hf]
    by_cases hany : (turn.any fun tu => decide (tu ≠ 0)) = true
    · rw [if_pos hany]
      refine ⟨_, rfl, ?_, ?_⟩
      · rw [List.length_zipWith, List.length_map, hlen]
        exact min_self _
      · intro i hilt
        rw [zipWith_getD _ _ _ i (by rw [List.length_map]; exact hilt)
          (by rw [hlen]; exact hilt)]
        rw [map_getD _ _ i hilt]
    · rw [if_neg hany]
      refine ⟨_, rfl, by rw [List.length_map], ?_⟩
      intro i hilt
      rw [map_getD _ _ i hilt]
      have hall : ∀ tu ∈ turn, tu = 0 := by
        intro tu htu
        have := List.any_eq_false.1 (Bool.not_eq_true _ ▸ hany) tu htu
        simpa using this
      rw [getD_eq_zero_of_forall_zero hall i]
      rw [zero_div, add_zero]

/-- Witness for C5 at `turn = [0, 2]`, `zeta = [1, 3]`, `beta = 1/2`,
`frev = some 4`. -/
theorem c5_witness :
    ((∀ tu ∈ [(0 : ℚ), 2], tu = 0) →
      arrival_time [(0 : ℚ), 2] [(1 : ℚ), 3] (1/2) (some 4)
        = .ok ([(1 : ℚ), 3].map fun z => -z / (1/2) / c0)) ∧
    ((∃ tu ∈ [(0 : ℚ), 2], tu ≠ 0) → (some (4 : ℚ)) = none →
      arrival_time [(0 : ℚ), 2] [(1 : ℚ), 3] (1/2) (some 4)
        = .error .missingFrev) ∧
    (∀ f, (some (4 : ℚ)) = some f →
      ∃ ts, arrival_time [(0 : ℚ), 2] [(1 : ℚ), 3] (1/2) (some 4) = .ok ts ∧
        ts.length = [(1 : ℚ), 3].length ∧
        ∀ i, i < [(1 : ℚ), 3].length →
          ts.getD i 0 = -([(1 : ℚ), 3].getD i 0) / (1/2) / c0
            + ([(0 : ℚ), 2].getD i 0) / f) :=
  c5_arrival_time [(0 : ℚ), 2] [(1 : ℚ), 3] (1/2) (some 4) (by norm_num)

/-! ## C6 -/

lemma binned_what_length (times what : List ℚ) (n : ℕ)
    (r : Option ℚ × Option ℚ) :
    (binned_timeseries_what times what n r).2.2.length = n := by
  simp [binned_timeseries_what]

lemma spectrumSeries_length (times : List ℚ) (what : Option (List ℚ))
    (n : ℕ) : (spectrumSeries times what n).length = n := by
  cases what with
  | none => simp [spectrumSeries, binned_counts_length]
  | some w => simp [spectrumSeries, binned_what_length]

lemma rfftMag_length (x : List ℚ) : (rfftMag x).length = x.length / 2 + 1 := by
  simp [rfftMag]

lemma fftBinCount_pos (times : List ℚ) (fmax : ℚ) :
    1 ≤ fftBinCount times fmax :=
  Nat.one_le_two_pow

lemma lt_two_pow_bitLength (m : ℕ) : m < 2 ^ bitLength m := by
  unfold bitLength
  split_ifs with h0
  · subst h0; norm_num
  · rw [Nat.log2_eq_log_two]
    exact Nat.lt_pow_succ_log_self (by norm_num) m

lemma fftBinCount_ge (times : List ℚ) (fmax : ℚ)
    (h : 0 < (listMax times - listMin times) * fmax * 2) :
    (⌈(listMax times - listMin times) * 2 * fmax⌉ : ℤ)
      ≤ (fftBinCount times fmax : ℤ) := by
  have harg : (listMax times - listMin times) * 2 * fmax
      = (listMax times - listMin times) * fmax * 2 := by ring
  rw [harg]
  have h1 : 0 < ⌈(listMax times - listMin times) * fmax * 2⌉ := Int.ceil_pos.2 h
  simp only [fftBinCount]
  set n0 : ℤ := ⌈(listMax times - listMin times) * fmax * 2⌉ with hn0
  have hnat : ((n0 - 1).natAbs : ℤ) = n0 - 1 := Int.natAbs_of_nonneg (by omega)
  have hm := lt_two_pow_bitLength (n0 - 1).natAbs
  have : ((n0 - 1).natAbs : ℤ) < (2 ^ bitLength (n0 - 1).natAbs : ℕ) := by
    exact_mod_cast hm
  omega

lemma mem_range_drop_one {m k : ℕ} (h : k ∈ (List.range m).drop 1) :
    1 ≤ k ∧ k < m := by
  refine ⟨?_, List.mem_range.1 (List.mem_of_mem_drop h)⟩
  cases m with
  | zero => simp at h
  | succ mp =>
    rw [List.range_succ_eq_map] at h
    simp only [List.drop_succ_cons, List.drop_zero] at h
    obtain ⟨j, _, rfl⟩ := List.mem_map.1 h
    exact Nat.succ_le_succ (Nat.zero_le j)

/-- C6: for every timestamp array with `max > min` and every `fmax > 0`, the
spectrum has no zero-frequency entry (every returned frequency is positive),
frequency and magnitude lists have equal length, and the internal sample
count is a power of two at least `ceil((max - min) * 2 * fmax)`. -/
theorem c6_spectrum_shape (times : List ℚ) (fmax : ℚ) (scaling : String)
    (hne : listMin times < listMax times) (hf : 0 < fmax) :
    ((spectrum times none fmax scaling).2.1.length
       = (spectrum times none fmax scaling).2.2.length) ∧
    (∀ q ∈ (spectrum times none fmax scaling).2.1, 0 < q) ∧
    (∃ k : ℕ, fftBinCount times fmax = 2 ^ k) ∧
    ((⌈(listMax times - listMin times) * 2 * fmax⌉ : ℤ)
       ≤ (fftBinCount times fmax : ℤ)) := by
  have hn1 : 1 ≤ fftBinCount times fmax := fftBinCount_pos times fmax
  have hnq : (0 : ℚ) < (fftBinCount times fmax : ℚ) := by exact_mod_cast hn1
  have hdt : 0 < (listMax times - listMin times) / (fftBinCount times fmax : ℚ) :=
    div_pos (by linarith) hnq
  refine ⟨?_, ?_, ⟨_, rfl⟩, fftBinCount_ge times fmax (by nlinarith)⟩
  · simp only [spectrum]
    rw [List.length_drop, List.length_map, List.length_range]
    split_ifs <;>
      simp [List.length_drop, List.length_map, rfftMag_length,
        spectrumSeries_length]
  · intro q hq
    simp only [spectrum] at hq
    rw [← List.map_drop] at hq
    obtain ⟨k, hk, rfl⟩ := List.mem_map.1 hq
    obtain ⟨hk1, _⟩ := mem_range_drop_one hk
    apply div_pos
    · exact_mod_cast hk1
    · exact mul_pos hnq hdt

/-- Witness for C6 at `times = [0, 1]`, `fmax = 2`, `scaling = "amplitude"`. -/
theorem c6_witness :
    ((spectrum [(0 : ℚ), 1] none 2 "amplitude").2.1.length
       = (spectrum [(0 : ℚ), 1] none 2 "amplitude").2.2.length) ∧
    (∀ q ∈ (spectrum [(0 : ℚ), 1] none 2 "amplitude").2.1, 0 < q) ∧
    (∃ k : ℕ, fftBinCount [(0 : ℚ), 1] 2 = 2 ^ k) ∧
    ((⌈(listMax [(0 : ℚ), 1] - listMin [(0 : ℚ), 1]) * 2 * 2⌉ : ℤ)
       ≤ (fftBinCount [(0 : ℚ), 1] 2 : ℤ)) :=
  c6_spectrum_shape [(0 : ℚ), 1] 2 "amplitude"
    (by norm_num [listMin, listMax, qmin, qmax]) (by norm_num)

/-! ## C7 -/

lemma spectrum_mags_amplitude (times : List ℚ) (what : Option (List ℚ))
    (fmax : ℚ) :
    (spectrum times what fmax "amplitude").2.2
      = ((rfftMag (spectrumSeries times what (fftBinCount times fmax))).drop
          1).map fun m => 2 / (fftBinCount times fmax : ℝ) * m := by
  simp only [spectrum]
  rw [if_pos (by decide : strLower "amplitude" = "amplitude")]
  simp only [spectrumSeries_length]

lemma spectrum_mags_pds (times : List ℚ) (what : Option (List ℚ))
    (fmax : ℚ) :
    (spectrum times what fmax "pds").2.2
      = ((rfftMag (spectrumSeries times what (fftBinCount times fmax))).drop
          1).map fun m => m ^ 2 := by
  simp only [spectrum]
  rw [if_neg (by decide : ¬ strLower "pds" = "amplitude"),
    if_pos (by decide : strLower "pds" = "pds")]

/-- C7: with scaling `"amplitude"` the magnitudes are `2/n` times the
absolute values of the (DC-stripped) FFT coefficients of the binned series
of length `n`; with the power scaling — named `"pds"` in the code, `"power"`
in the spec — they are the squared absolute values, unnormalized. -/
theorem c7_spectrum_scaling (times : List ℚ) (what : Option (List ℚ))
    (fmax : ℚ) :
    ((spectrum times what fmax "amplitude").2.2
      = ((rfftMag (spectrumSeries times what (fftBinCount times fmax))).drop
          1).map fun m => 2 / (fftBinCount times fmax : ℝ) * m) ∧
    ((spectrum times what fmax "pds").2.2
      = ((rfftMag (spectrumSeries times what (fftBinCount times fmax))).drop
          1).map fun m => m ^ 2) :=
  ⟨spectrum_mags_amplitude times what fmax, spectrum_mags_pds times what fmax⟩

/-! ## C10 -/

/-- C10: when the caller does not specify a scaling, `TimeFFTPlot` defaults
to `"pds"` (power-density, squared FFT magnitudes, as the third conjunct
shows) exactly when the binned quantity is the particle count, and to
`"amplitude"` for any other (averaged) particle property. -/
theorem c10_default_scaling :
    defaultScaling "count" = "pds" ∧
    (∀ kind : String, kind ≠ "count" → defaultScaling kind = "amplitude") ∧
    (∀ (times : List ℚ) (what : Option (List ℚ)) (fmax : ℚ),
      (spectrum times what fmax (defaultScaling "count")).2.2
        = ((rfftMag (spectrumSeries times what
            (fftBinCount times fmax))).drop 1).map fun m => m ^ 2) := by
  refine ⟨rfl, ?_, ?_⟩
  · intro kind hk
    simp [defaultScaling, hk]
  · intro times what fmax
    rw [show defaultScaling "count" = "pds" from rfl]
    exact spectrum_mags_pds times what fmax

/-- Witness for C10: a non-`"count"` kind defaults to `"amplitude"`. -/
theorem c10_witness : defaultScaling "x" = "amplitude" :=
  c10_default_scaling.2.1 "x" (by decide)

/-! ## C8 -/

/-- C8 (as stated, counterexample): for `times = [0, 1, 3, 6]` with
`bin_time = 1`, `bin_count = 5` and range `(0, 5)`, the delays are
`[1, 2, 3]`, but the histogram counts are `[0, 1, 1, 1, 0]` — delay `d`
falls in bin `⌊d⌋ = d`, not in bin `d - 1` — so the claimed counts
`[1, 1, 1, 0, 0]` are wrong. -/
theorem c8_counterexample :
    intervals [(0 : ℚ), 1, 3, 6] 5 1 ≠ [1, 1, 1, 0, 0] := by
  norm_num [intervals, intervalDelays, histogramCounts, List.insertionSort,
    List.orderedInsert, List.countP, List.countP.go, List.range,
    List.range.loop, List.zipWith]

/-- C8 (amended): the interval engine computes the consecutive differences
of the sorted timestamp array — `N - 1` delays for `N` timestamps, with
`delay[i] = sorted[i+1] - sorted[i]` — and histograms them over the fixed
range `(0, bin_count * bin_time)`; on `[0, 1, 3, 6]` with `bin_time = 1`,
`bin_count = 5` the delays are `[1, 2, 3]` and the counts are
`[0, 1, 1, 1, 0]`. -/
theorem c8_intervals (times : List ℚ) :
    (intervalDelays times).length = times.length - 1 ∧
    (∀ i, i + 1 < times.length →
      (intervalDelays times).getD i 0
        = (times.insertionSort (· ≤ ·)).getD (i + 1) 0
          - (times.insertionSort (· ≤ ·)).getD i 0) ∧
    intervalDelays [(0 : ℚ), 1, 3, 6] = [1, 2, 3] ∧
    intervals [(0 : ℚ), 1, 3, 6] 5 1 = [0, 1, 1, 1, 0] := by
  have hlen : (times.insertionSort (· ≤ ·)).length = times.length :=
    List.length_insertionSort _ times
  refine ⟨?_, ?_, ?_, ?_⟩
  · simp only [intervalDelays]
    rw [List.length_zipWith, ← List.drop_one, List.length_drop, hlen]
    omega
  · intro i hi
    simp only [intervalDelays]
    rw [zipWith_getD _ _ _ i (by rw [← List.drop_one, List.length_drop]; omega)
      (by omega : i < (times.insertionSort (· ≤ ·)).length)]
    rw [← List.drop_one, List.getD_eq_getElem?_getD, List.getElem?_drop,
      ← List.getD_eq_getElem?_getD, Nat.add_comm 1 i]
  · norm_num [intervalDelays, List.insertionSort, List.orderedInsert,
      List.zipWith]
  · norm_num [intervals, intervalDelays, histogramCounts, List.insertionSort,
      List.orderedInsert, List.countP, List.countP.go, List.range,
      List.range.loop, List.zipWith]

/-- Witness for C8 at `times = [5, 2]` (unsorted): the single delay is
`sorted[1] - sorted[0]`. -/
theorem c8_witness :
    (intervalDelays [(5 : ℚ), 2]).getD 0 0
      = ([(5 : ℚ), 2].insertionSort (· ≤ ·)).getD 1 0
        - ([(5 : ℚ), 2].insertionSort (· ≤ ·)).getD 0 0 :=
  (c8_intervals [(5 : ℚ), 2]).2.1 0 (by norm_num)

/-! ## C9 -/

lemma fdiv_num_num_of_ne {a b : ℝ} (hb : b ≠ 0) :
    fdiv (.num a) (.num b) = .num (a / b) := by
  simp [fdiv, hb]

lemma fdiv_num_zero_zero : fdiv (.num 0) (.num 0) = .nan := by
  simp [fdiv]

lemma fadd_num_num (a b : ℝ) : fadd (.num a) (.num b) = .num (a + b) := by
  simp [fadd]

lemma rmean_nonneg (w : List ℕ) : 0 ≤ rmean w := by
  unfold rmean
  positivity

lemma all_zero_of_rmean_eq_zero {w : List ℕ} (hw : w ≠ [])
    (h : rmean w = 0) : ∀ x ∈ w, x = 0 := by
  unfold rmean at h
  have hlen : (w.length : ℝ) ≠ 0 := by
    have : w.length ≠ 0 := by
      intro h0
      exact hw (List.length_eq_zero.1 h0)
    exact_mod_cast this
  rw [div_eq_zero_iff] at h
  rcases h with h | h
  · have hsum : w.sum = 0 := by exact_mod_cast h
    exact List.sum_eq_zero_iff.1 hsum
  · exact absurd h hlen

lemma rstd_of_all_zero {w : List ℕ} (hz : ∀ x ∈ w, x = 0) : rstd w = 0 := by
  unfold rstd
  have hm : rmean w = 0 := by
    unfold rmean
    have : w.sum = 0 := List.sum_eq_zero_iff.2 hz
    rw [this]
    simp
  have : (w.map fun x : ℕ => ((x : ℝ) - rmean w) ^ 2).sum = 0 := by
    apply List.sum_eq_zero
    intro y hy
    obtain ⟨x, hx, rfl⟩ := List.mem_map.1 hy
    rw [hz x hx, hm]
    norm_num
  rw [this]
  simp [Real.sqrt_zero]

lemma rmeanSq_of_all_zero {w : List ℕ} (hz : ∀ x ∈ w, x = 0) :
    rmeanSq w = 0 := by
  unfold rmeanSq
  have : (w.map fun x => x ^ 2).sum = 0 := by
    apply List.sum_eq_zero_iff.2
    intro y hy
    obtain ⟨x, hx, rfl⟩ := List.mem_map.1 hy
    rw [hz x hx]
    simp
  rw [this]
  simp

lemma rmeanSq_ne_zero {w : List ℕ} (hw : w ≠ []) (h : rmean w ≠ 0) :
    rmeanSq w ≠ 0 := by
  intro hsq
  apply h
  unfold rmeanSq at hsq
  have hlen : (w.length : ℝ) ≠ 0 := by
    have hl : w.length ≠ 0 := fun h0 => hw (List.length_eq_zero.1 h0)
    exact_mod_cast hl
  rw [div_eq_zero_iff] at hsq
  rcases hsq with hsq | hsq
  · have hs : (w.map fun x => x ^ 2).sum = 0 := by exact_mod_cast hsq
    have hz : ∀ x ∈ w, x = 0 := by
      intro x hx
      have := List.sum_eq_zero_iff.1 hs (x ^ 2) (List.mem_map_of_mem _ hx)
      exact pow_eq_zero_iff (by norm_num) |>.1 this
    unfold rmean
    rw [List.sum_eq_zero_iff.2 hz]
    simp
  · exact absurd hsq hlen

/-- C9: the variability dispatcher accepts exactly the metrics `"cv"` and
`"duty"`, mapping every evaluation window to the metric value and the
Poisson reference; for a nonempty window with nonzero mean count the cv
value is `std(N)/mean(N)` with Poisson reference `1/sqrt(mean(N))` and the
duty value is `mean(N)^2/mean(N^2)` with Poisson reference
`1/(1 + 1/mean(N))`; for a window with zero mean count both metric values
are NaN (IEEE `0.0/0.0`), and no error is raised. -/
theorem c9_variability (windows : List (List ℕ)) :
    (variabilityMetrics "cv" windows
        = .ok (windows.map cvValue, windows.map cvPoisson)) ∧
    (variabilityMetrics "duty" windows
        = .ok (windows.map dutyValue, windows.map dutyPoisson)) ∧
    (∀ w : List ℕ, w ≠ [] →
      ((rmean w = 0 → cvValue w = .nan ∧ dutyValue w = .nan) ∧
       (rmean w ≠ 0 →
          cvValue w = .num (rstd w / rmean w) ∧
          cvPoisson w = .num (1 / Real.sqrt (rmean w)) ∧
          dutyValue w = .num ((rmean w) ^ 2 / rmeanSq w) ∧
          dutyPoisson w = .num (1 / (1 + 1 / rmean w))))) := by
  refine ⟨rfl, ?_, ?_⟩
  · rw [variabilityMetrics, if_neg (by decide : ¬ ("duty" = "cv"))]
    rw [if_pos rfl]
  · intro w hw
    constructor
    · intro hm
      have hz := all_zero_of_rmean_eq_zero hw hm
      constructor
      · rw [cvValue, hm, rstd_of_all_zero hz]
        exact fdiv_num_zero_zero
      · rw [dutyValue, hm, rmeanSq_of_all_zero hz]
        norm_num
        exact fdiv_num_zero_zero
    · intro hm
      have hpos : 0 < rmean w := lt_of_le_of_ne (rmean_nonneg w) (Ne.symm hm)
      refine ⟨?_, ?_, ?_, ?_⟩
      · exact fdiv_num_num_of_ne hm
      · apply fdiv_num_num_of_ne
        intro h0
        exact hm (Real.sqrt_eq_zero (rmean_nonneg w) |>.1 h0)
      · exact fdiv_num_num_of_ne (rmeanSq_ne_zero hw hm)
      · rw [dutyPoisson, fdiv_num_num_of_ne hm, fadd_num_num]
        apply fdiv_num_num_of_ne
        have : 0 < 1 / rmean w := by positivity
        linarith

/-- Witness for C9: the zero-mean window `[0, 0]` yields NaN, and the
window `[1, 3]` yields the cv value `std/mean`. -/
theorem c9_witness :
    cvValue [0, 0] = .nan ∧
    cvValue [1, 3] = .num (rstd [1, 3] / rmean [1, 3]) := by
  constructor
  · exact (((c9_variability [[0, 0]]).2.2 [0, 0] (by decide)).1
      (by norm_num [rmean])).1
  · exact (((c9_variability [[1, 3]]).2.2 [1, 3] (by decide)).2
      (by norm_num [rmean])).1

end Xplt
